import Mathlib

/-!
Verification of the template-filling engine of the ProposalGenerator
repository (src/app.py, lines 210-323).

The Python core mutates python-pptx objects in place.  We embed it
shallowly: a run is a record of its text and formatting attributes, a
text frame is a list of paragraphs (each a list of runs), a shape is a
tagged tree, a presentation is a list of slides.  Python strings are
lists of characters; the membership test of the replacement loop is
containsSub and str.replace is pyReplace.  Fallible library calls
(part.relate_to, Presentation loading) are passed in as Except values,
mirroring the try/except structure of the source.
-/

set_option maxHeartbeats 1000000

namespace ProposalGen

/-- Boolean test that pat is a leading segment of s (List.isPrefixOf
specialised to Char, kept local so that every fact we use is proved
here). -/
def isPre : List Char → List Char → Bool
  | [], _ => true
  | _ :: _, [] => false
  | a :: ps, b :: ss => a == b && isPre ps ss

/-- Python substring membership, the test at app.py line 273:
placeholder in original_text. -/
def containsSub (pat : List Char) : List Char → Bool
  | [] => isPre pat []
  | c :: rest => isPre pat (c :: rest) || containsSub pat rest

/-- Helper for the Python semantics of str.replace with an empty
pattern: the replacement is inserted before every character and at the
end.  Never reached by the engine, whose keys are nonempty tokens. -/
def interleave (v : List Char) : List Char → List Char
  | [] => v
  | c :: rest => v ++ c :: interleave v rest

/-- Worker for pyReplace: left-to-right scan replacing each leftmost,
non-overlapping occurrence of the pattern k0 :: kt by v.  The first
argument counts characters still to be skipped after a match, which
keeps the recursion structural in the scanned list. -/
def replGo (v : List Char) (k0 : Char) (kt : List Char) : Nat → List Char → List Char
  | _, [] => []
  | Nat.succ n, _ :: rest => replGo v k0 kt n rest
  | 0, c :: rest =>
    if isPre (k0 :: kt) (c :: rest) then v ++ replGo v k0 kt kt.length rest
    else c :: replGo v k0 kt 0 rest

/-- Python str.replace s.replace(k, v): every leftmost, non-overlapping
occurrence of k in s is replaced by v (app.py line 282). -/
def pyReplace (s k v : List Char) : List Char :=
  match k with
  | [] => interleave v s
  | k0 :: kt => replGo v k0 kt 0 s

/-! ## Data model for runs, text frames, shapes and presentations -/

/-- Colour state of a run, mirroring python-pptx ColorFormat: inherit
models type None (no explicit colour), rgb models MSO_COLOR_TYPE.RGB
(enum value 1, the type tested at app.py line 279), scheme models a
theme colour. -/
inductive RunColor where
  | inherit : RunColor
  | rgb : Nat → RunColor
  | scheme : Nat → RunColor
deriving DecidableEq, Repr

/-- Formatting attributes of a run (run.font in python-pptx).  The
Option fields are None when the attribute is inherited. -/
structure RunFont where
  name : Option String
  size : Option Nat
  bold : Option Bool
  italic : Option Bool
  underline : Option Bool
  color : RunColor
deriving DecidableEq, Repr

/-- A text run: the atomic unit carrying a text string, a formatting
attribute set and, possibly, a hyperlink relationship id. -/
structure Run where
  text : List Char
  font : RunFont
  hyperlink : Option Nat
deriving DecidableEq, Repr

/-- A text frame is a list of paragraphs, each a list of runs. -/
abbrev TextFrame := List (List Run)

/-- A shape, as dispatched by find_and_replace_in_shape (app.py lines
301-311): it owns a text frame, or a table (rows of cells, each cell a
text frame), or child shapes (a group), or none of these. -/
inductive Shape where
  | withTextFrame : TextFrame → Shape
  | withTable : List (List TextFrame) → Shape
  | group : List Shape → Shape
  | plainShape : Shape

abbrev Slide := List Shape
abbrev Prs := List Slide

/-- RGBColor(r, g, b) of python-pptx, an integer 0xRRGGBB. -/
def rgbColor (r g b : Nat) : Nat := (r * 256 + g) * 256 + b

/-- Python truthiness of an optional string: None and the empty string
are falsy (the test if font_name: at app.py line 285). -/
def truthyStr : Option String → Bool
  | none => false
  | some s => !(s == "")

/-- Python truthiness of an optional non-negative integer (font sizes,
RGBColor values): None and 0 are falsy. -/
def truthyNat : Option Nat → Bool
  | none => false
  | some n => !(n == 0)

/-- add_hyperlink_to_run (app.py lines 210-261).  The outcome of
part.relate_to, the one fallible step of the try block, is passed in as
an Except value: ok rId registers the relationship and the hlinkClick
element is attached to the run, error enters the except branch.  In
both branches the run receives the visual link styling, blue
RGBColor(0, 0, 255) and underline; the returned Bool is True on the
success path and False on the fallback path. -/
def add_hyperlink_to_run (relateResult : Except Unit Nat) (run : Run) : Bool × Run :=
  match relateResult with
  | Except.ok rId =>
    let run := { run with hyperlink := some rId }
    let run := { run with font :=
      { run.font with color := RunColor.rgb (rgbColor 0 0 255), underline := some true } }
    (true, run)
  | Except.error _ =>
    (false, { run with font :=
      { run.font with color := RunColor.rgb (rgbColor 0 0 255), underline := some true } })

/-- Snapshot of the colour taken at app.py line 279: the rgb value is
captured only when the colour type is MSO_COLOR_TYPE.RGB (enum 1),
otherwise None. -/
def snapshotColor : RunColor → Option Nat
  | RunColor.rgb v => some v
  | _ => none

/-- Reapplication if font_name: run.font.name = font_name (line 285). -/
def reapplyName (v : Option String) (run : Run) : Run :=
  if truthyStr v then { run with font := { run.font with name := v } } else run

/-- Reapplication if font_size: run.font.size = font_size (line 287). -/
def reapplySize (v : Option Nat) (run : Run) : Run :=
  if truthyNat v then { run with font := { run.font with size := v } } else run

/-- Reapplication if font_bold is not None: run.font.bold = font_bold
(line 289). -/
def reapplyBold (v : Option Bool) (run : Run) : Run :=
  if v.isSome then { run with font := { run.font with bold := v } } else run

/-- Reapplication if font_italic is not None (line 291). -/
def reapplyItalic (v : Option Bool) (run : Run) : Run :=
  if v.isSome then { run with font := { run.font with italic := v } } else run

/-- Reapplication if font_color: run.font.color.rgb = font_color (line
293); an RGBColor is an int in python, so the value 0 is falsy. -/
def reapplyColor (v : Option Nat) (run : Run) : Run :=
  match v with
  | some c =>
    if c != 0 then { run with font := { run.font with color := RunColor.rgb c } } else run
  | none => run

/-- One iteration of the inner loop of find_and_replace_in_text_frame
(app.py lines 272-299) for the pair kv = (placeholder, replacement).
The containment test and the replacement both use original, the run
text captured before the loop (line 270), exactly as in the source.
Setting run.text in python-pptx does not touch the formatting element
of the run, so the text update leaves the font record unchanged and the
snapshot is taken from the current run state. -/
def applyItem (relate : List Char → Except Unit Nat)
    (click : List (List Char × List Char))
    (original : List Char) (run : Run) (kv : List Char × List Char) : Run :=
  if containsSub kv.1 original then
    let sName := run.font.name
    let sSize := run.font.size
    let sBold := run.font.bold
    let sItalic := run.font.italic
    let sColor := snapshotColor run.font.color
    let run := { run with text := pyReplace original kv.1 kv.2 }
    let run := reapplyName sName run
    let run := reapplySize sSize run
    let run := reapplyBold sBold run
    let run := reapplyItalic sItalic run
    let run := reapplyColor sColor run
    match List.lookup kv.1 click with
    | some url => (add_hyperlink_to_run (relate url) run).2
    | none => run
  else run

/-- Processing of one run by find_and_replace_in_text_frame: the text
is captured once (original_text, line 270), then every (placeholder,
replacement) pair of the mapping is applied in iteration order. -/
def replaceRun (relate : List Char → Except Unit Nat)
    (replacements : List (List Char × List Char))
    (click : List (List Char × List Char)) (run : Run) : Run :=
  List.foldl (applyItem relate click run.text) run replacements

/-- find_and_replace_in_text_frame (app.py lines 263-299).  A None
clickable_links argument is normalised to the empty mapping (lines
265-266); every run of every paragraph is processed. -/
def find_and_replace_in_text_frame (relate : List Char → Except Unit Nat)
    (text_frame : TextFrame) (replacements : List (List Char × List Char))
    (clickable_links : Option (List (List Char × List Char))) : TextFrame :=
  let clickable := clickable_links.getD []
  text_frame.map (fun paragraph => paragraph.map (replaceRun relate replacements clickable))

mutual

/-- find_and_replace_in_shape (app.py lines 301-311): dispatch on the
shape kind; text frames are processed directly, tables cell by cell,
groups walk every child with the same arguments, anything else is left
untouched. -/
def find_and_replace_in_shape (relate : List Char → Except Unit Nat)
    (replacements : List (List Char × List Char))
    (clickable_links : Option (List (List Char × List Char))) : Shape → Shape
  | Shape.withTextFrame tf =>
    Shape.withTextFrame (find_and_replace_in_text_frame relate tf replacements clickable_links)
  | Shape.withTable rows =>
    Shape.withTable (rows.map (fun row => row.map
      (fun cell => find_and_replace_in_text_frame relate cell replacements clickable_links)))
  | Shape.group subShapes =>
    Shape.group (walkShapes relate replacements clickable_links subShapes)
  | Shape.plainShape => Shape.plainShape

/-- The loop for sub_shape in shape.shapes of app.py lines 310-311. -/
def walkShapes (relate : List Char → Except Unit Nat)
    (replacements : List (List Char × List Char))
    (clickable_links : Option (List (List Char × List Char))) : List Shape → List Shape
  | [] => []
  | s :: rest =>
    find_and_replace_in_shape relate replacements clickable_links s ::
      walkShapes relate replacements clickable_links rest

end

/-- replace_placeholders_in_ppt (app.py lines 313-323).  The outcome of
Presentation(input_file), which raises when the path is missing or the
package invalid, is passed in as an Except value; on success every
shape of every slide is walked and the mutated presentation returned. -/
def replace_placeholders_in_ppt (relate : List Char → Except Unit Nat)
    (loadResult : Except Unit Prs)
    (replacements : List (List Char × List Char))
    (clickable_links : Option (List (List Char × List Char))) : Except Unit Prs :=
  match loadResult with
  | Except.error e => Except.error e
  | Except.ok prs =>
    Except.ok (prs.map (fun slide =>
      slide.map (find_and_replace_in_shape relate replacements clickable_links)))

/-- A placeholder token as the spec fixes it: two opening braces, a
name free of braces, two closing braces. -/
def isToken (t : List Char) : Prop :=
  ∃ nm : List Char, t = '{' :: '{' :: (nm ++ ['}', '}']) ∧
    ∀ c ∈ nm, c ≠ '{' ∧ c ≠ '}'

/-- A relate oracle that always succeeds, for concrete instances. -/
def relateOk : List Char → Except Unit Nat := fun _ => Except.ok 1

/-- A formatting record with every attribute inherited. -/
def plainFont : RunFont :=
  { name := none, size := none, bold := none, italic := none,
    underline := none, color := RunColor.inherit }

/-- A run with the given text and fully inherited formatting. -/
def plainRun (t : List Char) : Run :=
  { text := t, font := plainFont, hyperlink := none }

/-- The concrete placeholder written as two opening braces, the letter
a, two closing braces. -/
def tokA : List Char := ['{', '{', 'a', '}', '}']

/-- The concrete placeholder written as two opening braces, the letter
b, two closing braces. -/
def tokB : List Char := ['{', '{', 'b', '}', '}']

/-- The run text of testable property 7 of the spec: tokA, the word
and with surrounding spaces, tokB. -/
def textAB : List Char := tokA ++ (' ' :: 'a' :: 'n' :: 'd' :: ' ' :: tokB)

/-! ## Basic facts about isPre and containsSub -/

theorem isPre_iff (p : List Char) : ∀ s, isPre p s = true ↔ ∃ t, s = p ++ t := by
  induction p with
  | nil =>
    intro s
    simp [isPre]
  | cons a ps ih =>
    intro s
    cases s with
    | nil =>
      simp [isPre]
    | cons b ss =>
      simp only [isPre, Bool.and_eq_true, beq_iff_eq, ih ss]
      constructor
      · rintro ⟨rfl, t, rfl⟩
        exact ⟨t, rfl⟩
      · rintro ⟨t, h⟩
        simp only [List.cons_append, List.cons.injEq] at h
        exact ⟨h.1.symm, t, h.2⟩

theorem isPre_refl_append (p t : List Char) : isPre p (p ++ t) = true :=
  (isPre_iff p _).mpr ⟨t, rfl⟩

theorem isPre_length {p s : List Char} (h : isPre p s = true) : p.length ≤ s.length := by
  obtain ⟨t, rfl⟩ := (isPre_iff p s).mp h
  simp

theorem isPre_append_right {p x : List Char} (y : List Char) (h : isPre p x = true) :
    isPre p (x ++ y) = true := by
  obtain ⟨t, rfl⟩ := (isPre_iff p x).mp h
  rw [List.append_assoc]
  exact isPre_refl_append p (t ++ y)

theorem isPre_of_append {p x : List Char} (z : List Char) (h : isPre p (x ++ z) = true)
    (hle : p.length ≤ x.length) : isPre p x = true := by
  obtain ⟨t, ht⟩ := (isPre_iff p (x ++ z)).mp h
  apply (isPre_iff p x).mpr
  refine ⟨x.drop p.length, ?_⟩
  have htake : (x ++ z).take p.length = p := by
    rw [ht, List.take_append_eq_append_take]
    simp
  rw [List.take_append_eq_append_take] at htake
  have h2 : p.length - x.length = 0 := Nat.sub_eq_zero_of_le hle
  rw [h2] at htake
  simp at htake
  conv_lhs => rw [← List.take_append_drop p.length x]
  rw [htake]

theorem isPre_getElemQ {p s : List Char} (h : isPre p s = true) {i : Nat}
    (hi : i < p.length) : s[i]? = p[i]? := by
  obtain ⟨t, rfl⟩ := (isPre_iff p s).mp h
  simp [List.getElem?_append, hi]

theorem containsSub_iff (pat : List Char) : ∀ s, containsSub pat s = true ↔
    ∃ a b, s = a ++ pat ++ b := by
  intro s
  induction s with
  | nil =>
    simp only [containsSub, isPre_iff]
    constructor
    · rintro ⟨t, h⟩
      rw [List.nil_eq, List.append_eq_nil] at h
      exact ⟨[], [], by simp [h.1, h.2]⟩
    · rintro ⟨a, b, h⟩
      rw [List.nil_eq, List.append_eq_nil, List.append_eq_nil] at h
      exact ⟨[], by simp [h.1.2]⟩
  | cons c rest ih =>
    simp only [containsSub, Bool.or_eq_true, ih, isPre_iff]
    constructor
    · rintro (⟨t, h⟩ | ⟨a, b, h⟩)
      · exact ⟨[], t, by simp [h]⟩
      · exact ⟨c :: a, b, by simp [h]⟩
    · rintro ⟨a, b, h⟩
      cases a with
      | nil =>
        left
        exact ⟨b, by simpa using h⟩
      | cons a0 arest =>
        right
        simp only [List.cons_append, List.cons.injEq] at h
        exact ⟨arest, b, h.2⟩

theorem containsSub_decomp (pat a b : List Char) :
    containsSub pat (a ++ pat ++ b) = true :=
  (containsSub_iff pat _).mpr ⟨a, b, rfl⟩

/-! ## Equations and segment lemmas for pyReplace -/

theorem replGo_skip (v : List Char) (k0 : Char) (kt : List Char) :
    ∀ (n : Nat) (s : List Char), replGo v k0 kt n s = replGo v k0 kt 0 (s.drop n) := by
  intro n
  induction n with
  | zero => intro s; rfl
  | succ n ih =>
    intro s
    cases s with
    | nil => rfl
    | cons c rest =>
      show replGo v k0 kt n rest = _
      rw [ih rest]
      rfl

theorem pyReplace_nil (k0 : Char) (kt v : List Char) :
    pyReplace [] (k0 :: kt) v = [] := rfl

theorem pyReplace_cons (k0 : Char) (kt v : List Char) (c : Char) (rest : List Char) :
    pyReplace (c :: rest) (k0 :: kt) v =
      if isPre (k0 :: kt) (c :: rest) then v ++ pyReplace (rest.drop kt.length) (k0 :: kt) v
      else c :: pyReplace rest (k0 :: kt) v := by
  show replGo v k0 kt 0 (c :: rest) = _
  show (if isPre (k0 :: kt) (c :: rest) then v ++ replGo v k0 kt kt.length rest
    else c :: replGo v k0 kt 0 rest) = _
  rw [replGo_skip v k0 kt kt.length rest]
  rfl

theorem pyReplace_no_occurrence (k0 : Char) (kt v : List Char) :
    ∀ s, containsSub (k0 :: kt) s = false → pyReplace s (k0 :: kt) v = s := by
  intro s
  induction s with
  | nil => intro _; rfl
  | cons c rest ih =>
    intro h
    simp only [containsSub, Bool.or_eq_false_iff] at h
    rw [pyReplace_cons, if_neg (by simp [h.1]), ih h.2]

theorem pyReplace_head (k0 : Char) (kt v z : List Char) :
    pyReplace ((k0 :: kt) ++ z) (k0 :: kt) v = v ++ pyReplace z (k0 :: kt) v := by
  rw [List.cons_append, pyReplace_cons,
    if_pos (by rw [← List.cons_append]; exact isPre_refl_append _ z)]
  congr 1
  congr 1
  exact List.drop_left kt z

/-- Segment lemma: when no occurrence of the pattern crosses the border
between a and z, the scan of a ++ z is the scan of a followed by the
scan of z. -/
theorem pyReplace_split (k0 : Char) (kt v : List Char) :
    ∀ (n : Nat) (a z : List Char), a.length ≤ n →
      (∀ p, p < a.length → isPre (k0 :: kt) ((a ++ z).drop p) = true →
        p + (kt.length + 1) ≤ a.length) →
      pyReplace (a ++ z) (k0 :: kt) v =
        pyReplace a (k0 :: kt) v ++ pyReplace z (k0 :: kt) v := by
  intro n
  induction n with
  | zero =>
    intro a z ha _
    have : a = [] := List.length_eq_zero.mp (Nat.le_zero.mp ha)
    subst this
    simp [pyReplace_nil]
  | succ n ih =>
    intro a z ha hcond
    match a with
    | [] => simp [pyReplace_nil]
    | c :: a2 =>
      have ha2 : a2.length ≤ n := by simp at ha; omega
      rw [List.cons_append, pyReplace_cons, pyReplace_cons]
      by_cases hm : isPre (k0 :: kt) (c :: (a2 ++ z)) = true
      · have h0 := hcond 0 (by simp) (by simpa using hm)
        have hfit : kt.length + 1 ≤ a2.length + 1 := by simp at h0; omega
        have hmA : isPre (k0 :: kt) (c :: a2) = true :=
          isPre_of_append z (by simpa using hm) (by simpa using hfit)
        rw [if_pos hm, if_pos hmA]
        have hdrop : (a2 ++ z).drop kt.length = a2.drop kt.length ++ z := by
          rw [List.drop_append_eq_append_drop]
          have h2 : kt.length - a2.length = 0 := by omega
          rw [h2]
          simp
        rw [hdrop]
        have hsplit := ih (a2.drop kt.length) z (by simp; omega) (by
          intro p hp hmp
          have hplen : p < a2.length - kt.length := by simpa using hp
          have heq : (a2.drop kt.length ++ z).drop p =
              ((c :: a2) ++ z).drop (p + (kt.length + 1)) := by
            rw [← hdrop, List.drop_drop, List.cons_append]
            rw [show p + (kt.length + 1) = (kt.length + p) + 1 by omega,
              List.drop_succ_cons]
          rw [heq] at hmp
          have hb := hcond (p + (kt.length + 1)) (by simp; omega) hmp
          simp at hb ⊢
          omega)
        rw [hsplit]
        simp
      · have hmA : isPre (k0 :: kt) (c :: a2) = false := by
          cases h2 : isPre (k0 :: kt) (c :: a2) with
          | false => rfl
          | true =>
            have h3 := isPre_append_right z h2
            rw [List.cons_append] at h3
            exact absurd h3 hm
        rw [if_neg hm, if_neg (by simp [hmA])]
        have hsplit := ih a2 z ha2 (by
          intro p hp hmp
          have := hcond (p + 1) (by simp; omega) (by simpa using hmp)
          simp at this ⊢
          omega)
        rw [hsplit]
        simp

/-! ## Placeholder tokens never overlap in a text -/

theorem token_length {t : List Char} (h : isToken t) : 4 ≤ t.length := by
  obtain ⟨nm, rfl, _⟩ := h
  simp

theorem token_getQ_zero {t : List Char} (h : isToken t) : t[0]? = some '{' := by
  obtain ⟨nm, rfl, _⟩ := h
  simp

theorem token_getQ_one {t : List Char} (h : isToken t) : t[1]? = some '{' := by
  obtain ⟨nm, rfl, _⟩ := h
  simp

theorem token_getQ_last {t : List Char} (h : isToken t) :
    t[t.length - 1]? = some '}' ∧ t[t.length - 2]? = some '}' := by
  obtain ⟨nm, rfl, _⟩ := h
  have hl : ('{' :: '{' :: (nm ++ ['}', '}'])).length = nm.length + 4 := by
    simp
  rw [hl]
  constructor
  · show ('{' :: '{' :: (nm ++ ['}', '}']))[nm.length + 3]? = some '}'
    rw [List.getElem?_cons_succ, List.getElem?_cons_succ]
    rw [List.getElem?_append_right (by omega)]
    simp
  · show ('{' :: '{' :: (nm ++ ['}', '}']))[nm.length + 2]? = some '}'
    rw [List.getElem?_cons_succ, List.getElem?_cons_succ]
    rw [List.getElem?_append_right (by omega)]
    simp

theorem token_brace_open {t : List Char} (h : isToken t) {i : Nat}
    (hc : t[i]? = some '{') : i < 2 := by
  obtain ⟨nm, rfl, hfree⟩ := h
  by_contra hge
  push_neg at hge
  obtain ⟨j, rfl⟩ : ∃ j, i = j + 2 := ⟨i - 2, by omega⟩
  rw [List.getElem?_cons_succ, List.getElem?_cons_succ] at hc
  by_cases hj : j < nm.length
  · rw [List.getElem?_append_left hj] at hc
    have hmem : '{' ∈ nm := by
      rw [List.getElem?_eq_getElem hj] at hc
      simp only [Option.some.injEq] at hc
      rw [← hc]
      exact List.getElem_mem hj
    exact absurd rfl (hfree '{' hmem).1
  · rw [List.getElem?_append_right (by omega)] at hc
    rcases Nat.lt_or_ge (j - nm.length) 2 with h2 | h2
    · have hv : j - nm.length = 0 ∨ j - nm.length = 1 := by omega
      rcases hv with hv | hv <;> rw [hv] at hc <;> simp at hc
    · rw [List.getElem?_eq_none (by simpa using h2)] at hc
      simp at hc

theorem token_brace_close {t : List Char} (h : isToken t) {i : Nat}
    (hc : t[i]? = some '}') : t.length - 2 ≤ i := by
  obtain ⟨nm, rfl, hfree⟩ := h
  have hl : ('{' :: '{' :: (nm ++ ['}', '}'])).length = nm.length + 4 := by simp
  rw [hl]
  by_contra hlt
  push_neg at hlt
  rcases Nat.lt_or_ge i 2 with h2 | h2
  · have hv : i = 0 ∨ i = 1 := by omega
    rcases hv with rfl | rfl <;> simp at hc
  · obtain ⟨j, rfl⟩ : ∃ j, i = j + 2 := ⟨i - 2, by omega⟩
    rw [List.getElem?_cons_succ, List.getElem?_cons_succ] at hc
    have hj : j < nm.length := by omega
    rw [List.getElem?_append_left hj] at hc
    have hmem : '}' ∈ nm := by
      rw [List.getElem?_eq_getElem hj] at hc
      simp only [Option.some.injEq] at hc
      rw [← hc]
      exact List.getElem_mem hj
    exact absurd rfl (hfree '}' hmem).2

/-- In a text a ++ t ++ b holding an occurrence of the token t, any
occurrence of a token k lies entirely inside a, or entirely after t,
or starts exactly where t starts, which forces k = t: well-formed
placeholder tokens can never overlap. -/
theorem token_no_overlap {t k : List Char} (ht : isToken t) (hk : isToken k)
    (a b : List Char) (p : Nat)
    (hm : isPre k ((a ++ (t ++ b)).drop p) = true) :
    p + k.length ≤ a.length ∨ a.length + t.length ≤ p ∨ (p = a.length ∧ k = t) := by
  set s := a ++ (t ++ b) with hs
  have hklen := token_length hk
  have htlen := token_length ht
  have hidx : ∀ i, i < k.length → s[p + i]? = k[i]? := by
    intro i hi
    have h1 : (s.drop p)[i]? = k[i]? := isPre_getElemQ hm hi
    rw [List.getElem?_drop] at h1
    exact h1
  have hsat : ∀ j, a.length ≤ j → j < a.length + t.length →
      s[j]? = t[j - a.length]? := by
    intro j hj1 hj2
    rw [hs, List.getElem?_append_right hj1, List.getElem?_append_left (by omega)]
  have hplen : p + k.length ≤ s.length := by
    have h1 := isPre_length hm
    simp only [List.length_drop] at h1
    by_cases hp : p ≤ s.length
    · omega
    · rw [List.drop_of_length_le (by omega)] at hm
      have := isPre_length hm
      simp at this
      omega
  by_cases h1 : p + k.length ≤ a.length
  · exact Or.inl h1
  by_cases h2 : a.length + t.length ≤ p
  · exact Or.inr (Or.inl h2)
  push_neg at h1 h2
  rcases Nat.lt_trichotomy p a.length with hp | hp | hp
  · -- the k occurrence would start inside a and reach into t
    exfalso
    have e1 : k[a.length - p]? = some '{' := by
      rw [← hidx (a.length - p) (by omega)]
      rw [show p + (a.length - p) = a.length by omega]
      rw [hsat a.length (le_refl _) (by omega)]
      rw [show a.length - a.length = 0 by omega]
      exact token_getQ_zero ht
    have hi1 : a.length - p < 2 := token_brace_open hk e1
    have hi1e : a.length - p = 1 := by omega
    by_cases hend : p + k.length = a.length + 1
    · have hlast := (token_getQ_last hk).1
      rw [show k.length - 1 = a.length - p by omega, e1] at hlast
      simp at hlast
    · have e2 : k[a.length + 1 - p]? = some '{' := by
        rw [← hidx (a.length + 1 - p) (by omega)]
        rw [show p + (a.length + 1 - p) = a.length + 1 by omega]
        rw [hsat (a.length + 1) (by omega) (by omega)]
        rw [show a.length + 1 - a.length = 1 by omega]
        exact token_getQ_one ht
      have := token_brace_open hk e2
      omega
  · -- same start position: the two tokens must be equal
    right; right
    refine ⟨hp, ?_⟩
    have hmatch : ∀ i, i < k.length → i < t.length → k[i]? = t[i]? := by
      intro i hik hit
      rw [← hidx i hik, hsat (p + i) (by omega) (by omega),
        show p + i - a.length = i by omega]
    have hklent : k.length = t.length := by
      rcases Nat.lt_trichotomy k.length t.length with hl | hl | hl
      · exfalso
        have m1 : t[k.length - 1]? = some '}' := by
          rw [← hmatch (k.length - 1) (by omega) (by omega)]
          exact (token_getQ_last hk).1
        have m2 : t[k.length - 2]? = some '}' := by
          rw [← hmatch (k.length - 2) (by omega) (by omega)]
          exact (token_getQ_last hk).2
        have c1 := token_brace_close ht m1
        have c2 := token_brace_close ht m2
        omega
      · exact hl
      · exfalso
        have m1 : k[t.length - 1]? = some '}' := by
          rw [hmatch (t.length - 1) (by omega) (by omega)]
          exact (token_getQ_last ht).1
        have m2 : k[t.length - 2]? = some '}' := by
          rw [hmatch (t.length - 2) (by omega) (by omega)]
          exact (token_getQ_last ht).2
        have c1 := token_brace_close hk m1
        have c2 := token_brace_close hk m2
        omega
    apply List.ext_getElem?
    intro i
    by_cases hi : i < k.length
    · exact hmatch i hi (by omega)
    · rw [List.getElem?_eq_none (by omega), List.getElem?_eq_none (by omega)]
  · -- the k occurrence would start strictly inside t
    exfalso
    have e1 : t[p - a.length]? = some '{' := by
      have h0 := hidx 0 (by omega)
      rw [Nat.add_zero, hsat p (by omega) (by omega), token_getQ_zero hk] at h0
      exact h0
    have hi1 : p - a.length < 2 := token_brace_open ht e1
    have hi1e : p - a.length = 1 := by omega
    have e2 : t[2]? = some '{' := by
      have h0 := hidx 1 (by omega)
      rw [hsat (p + 1) (by omega) (by omega), token_getQ_one hk,
        show p + 1 - a.length = 2 by omega] at h0
      exact h0
    have := token_brace_open ht e2
    omega

/-! ## Replacement of token occurrences -/

theorem containsSub_of_isPre_drop {k x : List Char} {p : Nat}
    (h : isPre k (x.drop p) = true) : containsSub k x = true := by
  obtain ⟨t, ht⟩ := (isPre_iff k (x.drop p)).mp h
  refine (containsSub_iff k x).mpr ⟨x.take p, t, ?_⟩
  rw [List.append_assoc, ← ht, List.take_append_drop]

/-- A well-formed token never occurs as a substring of a different
well-formed token. -/
theorem token_not_in_other {t k : List Char} (ht : isToken t) (hk : isToken k)
    (hne : k ≠ t) : containsSub k t = false := by
  by_contra h
  rw [Bool.not_eq_false] at h
  obtain ⟨x, y, hxy⟩ := (containsSub_iff k t).mp h
  have hm : isPre k (t.drop x.length) = true := by
    rw [hxy, List.append_assoc, List.drop_left]
    exact isPre_refl_append k y
  have hdisj := token_no_overlap ht hk [] [] x.length (by simpa using hm)
  have hkl := token_length hk
  have htl : t.length = x.length + (k.length + y.length) := by
    rw [hxy]
    simp [List.length_append]
  rcases hdisj with h1 | h1 | ⟨h1, h2⟩
  · rw [List.length_nil] at h1
    omega
  · rw [List.length_nil] at h1
    omega
  · exact hne h2

/-- Replacing the leftmost occurrence of a token: when t does not occur
in a, the scan copies a, replaces the shown occurrence and continues on
the remainder.  Shows together with pyReplace_no_occurrence that the
substitution has replace-all semantics. -/
theorem pyReplace_token_first {t : List Char} (ht : isToken t) (v a z : List Char)
    (ha : containsSub t a = false) :
    pyReplace (a ++ (t ++ z)) t v = a ++ (v ++ pyReplace z t v) := by
  have htl := token_length ht
  cases t with
  | nil => simp at htl
  | cons k0 kt =>
    have hcond : ∀ p, p < a.length →
        isPre (k0 :: kt) ((a ++ ((k0 :: kt) ++ z)).drop p) = true →
        p + (kt.length + 1) ≤ a.length := by
      intro p hp hm
      rcases token_no_overlap ht ht a z p hm with h1 | h1 | ⟨h1, _⟩
      · simpa using h1
      · omega
      · omega
    rw [pyReplace_split k0 kt v a.length a ((k0 :: kt) ++ z) le_rfl hcond]
    rw [pyReplace_no_occurrence k0 kt v a ha, pyReplace_head]

/-- Occurrences of a token k distinct from t never touch a shown
occurrence of t, so the t segment survives the substitutionphase
verbatim. -/
theorem pyReplace_keeps_token {t k : List Char} (ht : isToken t) (hk : isToken k)
    (hne : k ≠ t) (v a b : List Char) :
    pyReplace (a ++ (t ++ b)) k v =
      pyReplace a k v ++ (t ++ pyReplace b k v) := by
  have hkl := token_length hk
  have htl := token_length ht
  cases k with
  | nil => simp at hkl
  | cons k0 kt =>
    have hcond1 : ∀ p, p < a.length →
        isPre (k0 :: kt) ((a ++ (t ++ b)).drop p) = true →
        p + (kt.length + 1) ≤ a.length := by
      intro p hp hm
      rcases token_no_overlap ht hk a b p hm with h1 | h1 | ⟨h1, _⟩
      · simpa using h1
      · omega
      · omega
    rw [pyReplace_split k0 kt v a.length a (t ++ b) le_rfl hcond1]
    have hcond2 : ∀ p, p < t.length →
        isPre (k0 :: kt) ((t ++ b).drop p) = true →
        p + (kt.length + 1) ≤ t.length := by
      intro p hp hm
      rcases token_no_overlap ht hk [] b p (by simpa using hm) with h1 | h1 | ⟨_, h2⟩
      · rw [List.length_nil] at h1
        have hl : (k0 :: kt).length = kt.length + 1 := rfl
        omega
      · rw [List.length_nil] at h1
        omega
      · exact absurd h2 hne
    rw [pyReplace_split k0 kt v t.length t b le_rfl hcond2]
    rw [pyReplace_no_occurrence k0 kt v t (token_not_in_other ht hk hne)]

/-- An occurrence of a token t survives the replacement of a different
token k. -/
theorem pyReplace_keeps_containsSub {t k : List Char} (ht : isToken t)
    (hk : isToken k) (hne : k ≠ t) (v s : List Char)
    (hc : containsSub t s = true) : containsSub t (pyReplace s k v) = true := by
  obtain ⟨a, b, rfl⟩ := (containsSub_iff t s).mp hc
  rw [List.append_assoc, pyReplace_keeps_token ht hk hne]
  rw [← List.append_assoc]
  exact containsSub_decomp t _ _

/-- A single occurrence of the token is replaced and the surrounding
text is kept verbatim. -/
theorem pyReplace_token_single {t : List Char} (ht : isToken t) (v a b : List Char)
    (ha : containsSub t a = false) (hb : containsSub t b = false) :
    pyReplace (a ++ (t ++ b)) t v = a ++ (v ++ b) := by
  have htl := token_length ht
  rw [pyReplace_token_first ht v a b ha]
  cases t with
  | nil => simp at htl
  | cons k0 kt => rw [pyReplace_no_occurrence k0 kt v b hb]

/-- Two occurrences of the same token in one text are both replaced by
a single substitution pass. -/
theorem pyReplace_token_double {t : List Char} (ht : isToken t)
    (v a b c : List Char) (ha : containsSub t a = false)
    (hb : containsSub t b = false) (hc : containsSub t c = false) :
    pyReplace (a ++ (t ++ (b ++ (t ++ c)))) t v =
      a ++ (v ++ (b ++ (v ++ c))) := by
  have htl := token_length ht
  rw [pyReplace_token_first ht v a (b ++ (t ++ c)) ha]
  rw [pyReplace_token_single ht v b c hb hc]

/-! ## Behaviour of one iteration of the replacement loop -/

theorem add_hyperlink_text (e : Except Unit Nat) (r : Run) :
    (add_hyperlink_to_run e r).2.text = r.text := by
  cases e <;> rfl

theorem reapplyName_text (v : Option String) (r : Run) :
    (reapplyName v r).text = r.text := by
  unfold reapplyName
  split <;> rfl

theorem reapplySize_text (v : Option Nat) (r : Run) :
    (reapplySize v r).text = r.text := by
  unfold reapplySize
  split <;> rfl

theorem reapplyBold_text (v : Option Bool) (r : Run) :
    (reapplyBold v r).text = r.text := by
  unfold reapplyBold
  split <;> rfl

theorem reapplyItalic_text (v : Option Bool) (r : Run) :
    (reapplyItalic v r).text = r.text := by
  unfold reapplyItalic
  split <;> rfl

theorem reapplyColor_text (v : Option Nat) (r : Run) :
    (reapplyColor v r).text = r.text := by
  unfold reapplyColor
  cases v with
  | none => rfl
  | some c => dsimp only; split <;> rfl

/-- The text effect of one loop iteration: when the placeholder occurs
in the captured original text, the run text becomes the replacement of
the ORIGINAL text, otherwise the run is left as it stands. -/
theorem applyItem_text (relate : List Char → Except Unit Nat)
    (click : List (List Char × List Char)) (original : List Char) (run : Run)
    (kv : List Char × List Char) :
    (applyItem relate click original run kv).text =
      if containsSub kv.1 original then pyReplace original kv.1 kv.2
      else run.text := by
  unfold applyItem
  split
  · cases List.lookup kv.1 click with
    | none =>
      simp only [add_hyperlink_text, reapplyColor_text, reapplyItalic_text,
        reapplyBold_text, reapplySize_text, reapplyName_text]
    | some url =>
      simp only [add_hyperlink_text, reapplyColor_text, reapplyItalic_text,
        reapplyBold_text, reapplySize_text, reapplyName_text]
  · rfl

theorem applyItem_no_match (relate : List Char → Except Unit Nat)
    (click : List (List Char × List Char)) (original : List Char) (run : Run)
    (kv : List Char × List Char) (h : containsSub kv.1 original = false) :
    applyItem relate click original run kv = run := by
  unfold applyItem
  rw [if_neg (by simp [h])]

theorem reapplyName_self (r : Run) : reapplyName r.font.name r = r := by
  unfold reapplyName
  split <;> rfl

theorem reapplySize_self (r : Run) : reapplySize r.font.size r = r := by
  unfold reapplySize
  split <;> rfl

theorem reapplyBold_self (r : Run) : reapplyBold r.font.bold r = r := by
  unfold reapplyBold
  split <;> rfl

theorem reapplyItalic_self (r : Run) : reapplyItalic r.font.italic r = r := by
  unfold reapplyItalic
  split <;> rfl

theorem reapplyColor_self (r : Run) :
    reapplyColor (snapshotColor r.font.color) r = r := by
  unfold reapplyColor snapshotColor
  cases hc : r.font.color with
  | inherit => rfl
  | scheme i => rfl
  | rgb v =>
    dsimp only
    split
    · rw [← hc]
    · rfl

/-- When the placeholder is not clickable, one loop iteration amounts
to a pure text update on the run: the snapshot and reapplication of the
formatting attributes leave every font field as it was. -/
theorem applyItem_no_click (relate : List Char → Except Unit Nat)
    (click : List (List Char × List Char)) (original : List Char) (run : Run)
    (kv : List Char × List Char) (h : List.lookup kv.1 click = none) :
    applyItem relate click original run kv =
      if containsSub kv.1 original then
        { run with text := pyReplace original kv.1 kv.2 }
      else run := by
  unfold applyItem
  split
  · have e1 : reapplyName run.font.name
        { run with text := pyReplace original kv.1 kv.2 } =
        { run with text := pyReplace original kv.1 kv.2 } :=
      reapplyName_self { run with text := pyReplace original kv.1 kv.2 }
    have e2 : reapplySize run.font.size
        { run with text := pyReplace original kv.1 kv.2 } =
        { run with text := pyReplace original kv.1 kv.2 } :=
      reapplySize_self { run with text := pyReplace original kv.1 kv.2 }
    have e3 : reapplyBold run.font.bold
        { run with text := pyReplace original kv.1 kv.2 } =
        { run with text := pyReplace original kv.1 kv.2 } :=
      reapplyBold_self { run with text := pyReplace original kv.1 kv.2 }
    have e4 : reapplyItalic run.font.italic
        { run with text := pyReplace original kv.1 kv.2 } =
        { run with text := pyReplace original kv.1 kv.2 } :=
      reapplyItalic_self { run with text := pyReplace original kv.1 kv.2 }
    have e5 : reapplyColor (snapshotColor run.font.color)
        { run with text := pyReplace original kv.1 kv.2 } =
        { run with text := pyReplace original kv.1 kv.2 } :=
      reapplyColor_self { run with text := pyReplace original kv.1 kv.2 }
    rw [h]
    show reapplyColor (snapshotColor run.font.color)
        (reapplyItalic run.font.italic
          (reapplyBold run.font.bold
            (reapplySize run.font.size
              (reapplyName run.font.name
                { run with text := pyReplace original kv.1 kv.2 })))) =
      { run with text := pyReplace original kv.1 kv.2 }
    rw [e1, e2, e3, e4, e5]
  · rfl


/-! ## Behaviour of the whole replacement loop on one run -/

theorem foldl_no_match (relate : List Char → Except Unit Nat)
    (click : List (List Char × List Char)) (original : List Char) :
    ∀ (repls : List (List Char × List Char)) (acc : Run),
      (∀ kv ∈ repls, containsSub kv.1 original = false) →
      List.foldl (applyItem relate click original) acc repls = acc := by
  intro repls
  induction repls with
  | nil => intro acc _; rfl
  | cons kv rest ih =>
    intro acc h
    rw [List.foldl_cons,
      applyItem_no_match relate click original acc kv (h kv (by simp))]
    exact ih acc (fun kv2 hm => h kv2 (by simp [hm]))

theorem foldl_font_hyper (relate : List Char → Except Unit Nat)
    (click : List (List Char × List Char)) (original : List Char) :
    ∀ (repls : List (List Char × List Char)) (acc : Run),
      (∀ kv ∈ repls, List.lookup kv.1 click = none) →
      (List.foldl (applyItem relate click original) acc repls).font = acc.font ∧
      (List.foldl (applyItem relate click original) acc repls).hyperlink =
        acc.hyperlink := by
  intro repls
  induction repls with
  | nil => intro acc _; exact ⟨rfl, rfl⟩
  | cons kv rest ih =>
    intro acc h
    rw [List.foldl_cons]
    have hstep := applyItem_no_click relate click original acc kv (h kv (by simp))
    have hrest := ih (applyItem relate click original acc kv)
      (fun kv2 hm => h kv2 (by simp [hm]))
    refine ⟨hrest.1.trans ?_, hrest.2.trans ?_⟩
    · rw [hstep]
      split <;> rfl
    · rw [hstep]
      split <;> rfl

theorem foldl_text_unique (relate : List Char → Except Unit Nat)
    (click : List (List Char × List Char)) (original : List Char)
    (k v : List Char) :
    ∀ (repls : List (List Char × List Char)) (acc : Run),
      (∀ kv ∈ repls, containsSub kv.1 original = true → kv = (k, v)) →
      (∃ kv ∈ repls, containsSub kv.1 original = true) →
      (List.foldl (applyItem relate click original) acc repls).text =
        pyReplace original k v := by
  intro repls
  induction repls with
  | nil =>
    rintro acc _ ⟨kv, hm, _⟩
    cases hm
  | cons kv rest ih =>
    intro acc hall hex
    rw [List.foldl_cons]
    by_cases hc : containsSub kv.1 original = true
    · have hkv : kv = (k, v) := hall kv (by simp) hc
      by_cases hrest : ∃ kv2 ∈ rest, containsSub kv2.1 original = true
      · exact ih _ (fun kv2 hm hc2 => hall kv2 (by simp [hm]) hc2) hrest
      · push_neg at hrest
        rw [foldl_no_match relate click original rest _
          (fun kv2 hm => by
            have := hrest kv2 hm
            simpa using this)]
        rw [applyItem_text, if_pos hc, hkv]
    · have hex2 : ∃ kv2 ∈ rest, containsSub kv2.1 original = true := by
        rcases hex with ⟨kv2, hm, hc2⟩
        rcases List.mem_cons.mp hm with rfl | hm2
        · exact absurd hc2 hc
        · exact ⟨kv2, hm2, hc2⟩
      rw [applyItem_no_match relate click original acc kv (by simpa using hc)]
      exact ih acc (fun kv2 hm hc2 => hall kv2 (by simp [hm]) hc2) hex2

theorem foldl_text_cases (relate : List Char → Except Unit Nat)
    (click : List (List Char × List Char)) (original : List Char) :
    ∀ (repls : List (List Char × List Char)) (acc : Run),
      (List.foldl (applyItem relate click original) acc repls).text = acc.text ∨
      ∃ kv, kv ∈ repls ∧ containsSub kv.1 original = true ∧
        (List.foldl (applyItem relate click original) acc repls).text =
          pyReplace original kv.1 kv.2 := by
  intro repls
  induction repls with
  | nil => intro acc; exact Or.inl rfl
  | cons kv rest ih =>
    intro acc
    rw [List.foldl_cons]
    rcases ih (applyItem relate click original acc kv) with h | ⟨kv2, hm, hc2, he⟩
    · rw [h, applyItem_text]
      by_cases hc : containsSub kv.1 original = true
      · exact Or.inr ⟨kv, by simp, hc, by rw [if_pos hc]⟩
      · rw [if_neg hc]
        exact Or.inl rfl
    · exact Or.inr ⟨kv2, by simp [hm], hc2, he⟩

theorem nodup_key_val {repls : List (List Char × List Char)}
    (hnd : (repls.map Prod.fst).Nodup) {k v v2 : List Char}
    (h1 : (k, v) ∈ repls) (h2 : (k, v2) ∈ repls) : v = v2 := by
  induction repls with
  | nil => cases h1
  | cons kv rest ih =>
    rw [List.map_cons, List.nodup_cons] at hnd
    rcases List.mem_cons.mp h1 with he1 | hm1 <;>
      rcases List.mem_cons.mp h2 with he2 | hm2
    · exact congrArg Prod.snd (he1.trans he2.symm)
    · exfalso
      apply hnd.1
      rw [← he1]
      show k ∈ List.map Prod.fst rest
      exact List.mem_map.mpr ⟨(k, v2), hm2, rfl⟩
    · exfalso
      apply hnd.1
      rw [← he2]
      show k ∈ List.map Prod.fst rest
      exact List.mem_map.mpr ⟨(k, v), hm1, rfl⟩
    · exact ih hnd.2 hm1 hm2


/-! ## Behaviour of the shape walker -/

theorem replaceRun_nil (relate : List Char → Except Unit Nat)
    (click : List (List Char × List Char)) (r : Run) :
    replaceRun relate [] click r = r := rfl

theorem find_TF_empty (relate : List Char → Except Unit Nat)
    (click? : Option (List (List Char × List Char))) (tf : TextFrame) :
    find_and_replace_in_text_frame relate tf [] click? = tf := by
  unfold find_and_replace_in_text_frame
  have hp : ∀ p : List Run, p.map (replaceRun relate [] (click?.getD [])) = p := by
    intro p
    calc p.map (replaceRun relate [] (click?.getD []))
        = p.map id := List.map_congr_left (fun r _ => rfl)
      _ = p := List.map_id p
  calc List.map (fun p => p.map (replaceRun relate [] (click?.getD []))) tf
      = tf.map id := List.map_congr_left (fun p _ => hp p)
    _ = tf := List.map_id tf

theorem find_TF_click_congr (relate : List Char → Except Unit Nat)
    (repls : List (List Char × List Char)) (tf : TextFrame)
    (c1 c2 : Option (List (List Char × List Char)))
    (h : c1.getD [] = c2.getD []) :
    find_and_replace_in_text_frame relate tf repls c1 =
      find_and_replace_in_text_frame relate tf repls c2 := by
  unfold find_and_replace_in_text_frame
  rw [h]

mutual

theorem shape_empty_id : ∀ (relate : List Char → Except Unit Nat)
    (click? : Option (List (List Char × List Char))) (s : Shape),
    find_and_replace_in_shape relate [] click? s = s := by
  intro relate click? s
  cases s with
  | withTextFrame tf =>
    rw [find_and_replace_in_shape, find_TF_empty]
  | withTable rows =>
    rw [find_and_replace_in_shape]
    have hrow : ∀ row : List TextFrame,
        row.map (fun cell => find_and_replace_in_text_frame relate cell [] click?) =
          row := by
      intro row
      calc row.map (fun cell => find_and_replace_in_text_frame relate cell [] click?)
          = row.map id := List.map_congr_left (fun cell _ => find_TF_empty relate click? cell)
        _ = row := List.map_id row
    have : rows.map (fun row => row.map
        (fun cell => find_and_replace_in_text_frame relate cell [] click?)) = rows := by
      calc rows.map _ = rows.map id := List.map_congr_left (fun row _ => hrow row)
        _ = rows := List.map_id rows
    rw [this]
  | group subs =>
    rw [find_and_replace_in_shape, walk_empty_id relate click? subs]
  | plainShape =>
    rw [find_and_replace_in_shape]

theorem walk_empty_id : ∀ (relate : List Char → Except Unit Nat)
    (click? : Option (List (List Char × List Char))) (l : List Shape),
    walkShapes relate [] click? l = l := by
  intro relate click? l
  cases l with
  | nil => rw [walkShapes]
  | cons s rest =>
    rw [walkShapes, shape_empty_id relate click? s, walk_empty_id relate click? rest]

end

mutual

theorem shape_click_congr : ∀ (relate : List Char → Except Unit Nat)
    (repls : List (List Char × List Char))
    (c1 c2 : Option (List (List Char × List Char))),
    c1.getD [] = c2.getD [] → ∀ s : Shape,
    find_and_replace_in_shape relate repls c1 s =
      find_and_replace_in_shape relate repls c2 s := by
  intro relate repls c1 c2 h s
  cases s with
  | withTextFrame tf =>
    rw [find_and_replace_in_shape, find_and_replace_in_shape,
      find_TF_click_congr relate repls tf c1 c2 h]
  | withTable rows =>
    rw [find_and_replace_in_shape, find_and_replace_in_shape]
    have hrow : ∀ row : List TextFrame,
        row.map (fun cell => find_and_replace_in_text_frame relate cell repls c1) =
          row.map (fun cell => find_and_replace_in_text_frame relate cell repls c2) :=
      fun row => List.map_congr_left
        (fun cell _ => find_TF_click_congr relate repls cell c1 c2 h)
    rw [List.map_congr_left (fun row _ => hrow row)]
  | group subs =>
    rw [find_and_replace_in_shape, find_and_replace_in_shape,
      walk_click_congr relate repls c1 c2 h subs]
  | plainShape =>
    rw [find_and_replace_in_shape, find_and_replace_in_shape]

theorem walk_click_congr : ∀ (relate : List Char → Except Unit Nat)
    (repls : List (List Char × List Char))
    (c1 c2 : Option (List (List Char × List Char))),
    c1.getD [] = c2.getD [] → ∀ l : List Shape,
    walkShapes relate repls c1 l = walkShapes relate repls c2 l := by
  intro relate repls c1 c2 h l
  cases l with
  | nil => rw [walkShapes, walkShapes]
  | cons s rest =>
    rw [walkShapes, walkShapes, shape_click_congr relate repls c1 c2 h s,
      walk_click_congr relate repls c1 c2 h rest]

end


/-! ## Claim theorems -/

/-- C1: the claim states that a run holding two distinct mapped
placeholders has both replaced.  The code evaluates differently: each
iteration assigns run.text = original_text.replace(placeholder, value)
from the text captured BEFORE the loop, so the first replacement is
overwritten and only the last matching key survives.  On the run text
of testable property 7 with mapping tokA to X and tokB to Y the result
is the original text with only tokB replaced, not the claimed text with
both replaced. -/
theorem c1_two_placeholders_last_key_wins :
    find_and_replace_in_text_frame relateOk [[plainRun textAB]]
        [(tokA, ['X']), (tokB, ['Y'])] none =
      [[plainRun (tokA ++ (' ' :: 'a' :: 'n' :: 'd' :: ' ' :: ['Y']))]] ∧
    tokA ++ (' ' :: 'a' :: 'n' :: 'd' :: ' ' :: ['Y']) ≠
      ['X', ' ', 'a', 'n', 'd', ' ', 'Y'] := by
  constructor
  · decide
  · decide


/-- C2: for every run processed without clickable links, the whole
formatting attribute set (font family, size, bold, italic, underline,
colour) is left exactly as it was: explicit values keep their
pre-replacement values, unset attributes stay unset, and an inherited
or theme colour is not captured into an explicit one, both at run level
and across a whole text frame. -/
theorem c2_formatting_preserved (relate : List Char → Except Unit Nat)
    (repls : List (List Char × List Char)) :
    (∀ r : Run, (replaceRun relate repls [] r).font = r.font) ∧
    (∀ tf : TextFrame,
      (find_and_replace_in_text_frame relate tf repls none).map (List.map Run.font) =
        tf.map (List.map Run.font)) := by
  have hr : ∀ r : Run, (replaceRun relate repls [] r).font = r.font := fun r =>
    (foldl_font_hyper relate [] r.text repls r (fun kv _ => rfl)).1
  refine ⟨hr, ?_⟩
  intro tf
  show (tf.map (fun p => p.map (replaceRun relate repls []))).map (List.map Run.font) =
    tf.map (List.map Run.font)
  rw [List.map_map]
  apply List.map_congr_left
  intro p _
  show (p.map (replaceRun relate repls [])).map Run.font = p.map Run.font
  rw [List.map_map]
  apply List.map_congr_left
  intro r _
  exact hr r

/-- C3: a run whose text holds exactly one mapped placeholder, with no
other mapping key occurring in it, undergoes a pure substring
replacement: the prefix before the token and the suffix after it are
kept verbatim and only the token is changed to the mapped value. -/
theorem c3_single_placeholder_substring_replace
    (relate : List Char → Except Unit Nat)
    (repls click : List (List Char × List Char)) (r : Run)
    (k v a b : List Char)
    (htok : isToken k)
    (hmem : (k, v) ∈ repls)
    (hnd : (repls.map Prod.fst).Nodup)
    (htext : r.text = a ++ (k ++ b))
    (hother : ∀ kv ∈ repls, kv.1 ≠ k → containsSub kv.1 r.text = false)
    (ha : containsSub k a = false) (hb : containsSub k b = false) :
    (replaceRun relate repls click r).text = a ++ (v ++ b) := by
  have hkc : containsSub k r.text = true := by
    rw [htext, ← List.append_assoc]
    exact containsSub_decomp k a b
  have hall : ∀ kv ∈ repls, containsSub kv.1 r.text = true → kv = (k, v) := by
    intro kv hm hc
    by_cases hk : kv.1 = k
    · obtain ⟨k1, v1⟩ := kv
      simp only at hk
      subst hk
      have := nodup_key_val hnd hm hmem
      rw [this]
    · rw [hother kv hm hk] at hc
      cases hc
  have hmain := foldl_text_unique relate click r.text k v repls r hall ⟨(k, v), hmem, hkc⟩
  rw [show (replaceRun relate repls click r).text = pyReplace r.text k v from hmain]
  rw [htext]
  exact pyReplace_token_single htok v a b ha hb

theorem c3_witness :
    (replaceRun relateOk [(tokA, ['$', '5', '0', '0'])] []
      (plainRun (['P', 'r', 'i', 'c', 'e', ':', ' '] ++ (tokA ++ [' ', 'd', 'u', 'e'])))).text =
      ['P', 'r', 'i', 'c', 'e', ':', ' '] ++ (['$', '5', '0', '0'] ++ [' ', 'd', 'u', 'e']) :=
  c3_single_placeholder_substring_replace relateOk [(tokA, ['$', '5', '0', '0'])] []
    (plainRun (['P', 'r', 'i', 'c', 'e', ':', ' '] ++ (tokA ++ [' ', 'd', 'u', 'e'])))
    tokA ['$', '5', '0', '0'] ['P', 'r', 'i', 'c', 'e', ':', ' '] [' ', 'd', 'u', 'e']
    ⟨['a'], by decide, by decide⟩ (by decide) (by decide) (by decide)
    (by decide) (by decide) (by decide)

/-- C4: unmatched keys are ignored in both directions.  First, a
mapping key whose placeholder occurs in no run of a text frame
contributes nothing: removing it from the mapping gives the identical
result (and no error is possible, the function being total).  Second, a
placeholder token present in a run but absent from the mapping of
well-formed distinct tokens survives the processing verbatim: the
replacer never deletes or blanks an unmatched placeholder. -/
theorem c4_unmatched_keys_both_ways (relate : List Char → Except Unit Nat)
    (click : List (List Char × List Char)) :
    (∀ (tf : TextFrame) (repls1 repls2 : List (List Char × List Char))
      (k v : List Char) (click? : Option (List (List Char × List Char))),
      (∀ p ∈ tf, ∀ r ∈ p, containsSub k r.text = false) →
      find_and_replace_in_text_frame relate tf (repls1 ++ (k, v) :: repls2) click? =
        find_and_replace_in_text_frame relate tf (repls1 ++ repls2) click?) ∧
    (∀ (repls : List (List Char × List Char)) (r : Run) (t : List Char),
      isToken t → containsSub t r.text = true →
      (∀ kv ∈ repls, isToken kv.1 ∧ kv.1 ≠ t) →
      containsSub t (replaceRun relate repls click r).text = true) := by
  constructor
  · intro tf repls1 repls2 k v click? habs
    show tf.map (fun p => p.map (replaceRun relate (repls1 ++ (k, v) :: repls2)
        (click?.getD []))) =
      tf.map (fun p => p.map (replaceRun relate (repls1 ++ repls2) (click?.getD [])))
    apply List.map_congr_left
    intro p hp
    apply List.map_congr_left
    intro r hr
    show List.foldl (applyItem relate (click?.getD []) r.text) r
        (repls1 ++ (k, v) :: repls2) =
      List.foldl (applyItem relate (click?.getD []) r.text) r (repls1 ++ repls2)
    rw [List.foldl_append, List.foldl_append, List.foldl_cons,
      applyItem_no_match relate (click?.getD []) r.text _ (k, v) (habs p hp r hr)]
  · intro repls r t ht hc hall
    rcases foldl_text_cases relate click r.text repls r with h | ⟨kv, hm, hck, he⟩
    · rw [show (replaceRun relate repls click r).text = r.text from h]
      exact hc
    · rw [show (replaceRun relate repls click r).text = pyReplace r.text kv.1 kv.2 from he]
      exact pyReplace_keeps_containsSub ht (hall kv hm).1 (hall kv hm).2 kv.2 r.text hc

theorem c4_witness :
    find_and_replace_in_text_frame relateOk
        [[plainRun ['h', 'e', 'l', 'l', 'o']]] [(tokA, ['X'])] none =
      find_and_replace_in_text_frame relateOk
        [[plainRun ['h', 'e', 'l', 'l', 'o']]] [] none ∧
    containsSub tokB (replaceRun relateOk [(tokA, ['X'])] []
      (plainRun (tokA ++ (' ' :: tokB)))).text = true := by
  constructor
  · exact (c4_unmatched_keys_both_ways relateOk []).1
      [[plainRun ['h', 'e', 'l', 'l', 'o']]] [] [] tokA ['X'] none (by decide)
  · exact (c4_unmatched_keys_both_ways relateOk []).2 [(tokA, ['X'])]
      (plainRun (tokA ++ (' ' :: tokB))) tokB ⟨['b'], by decide, by decide⟩
      (by decide)
      (by
        intro kv hm
        rw [List.mem_singleton] at hm
        subst hm
        exact ⟨⟨['a'], by decide, by decide⟩, by decide⟩)

/-- C5: the shape walker reaches every text-bearing leaf through
arbitrary nesting: a group holding a sub-group holding a table has the
text replacer applied to every cell of every row, a shape owning
neither text frame nor table nor children is a no-op, and a mapped
well-formed placeholder sitting in a table cell nested two groups deep
is replaced in place. -/
theorem c5_recursive_shape_coverage (relate : List Char → Except Unit Nat)
    (repls : List (List Char × List Char))
    (click? : Option (List (List Char × List Char))) :
    (∀ rows : List (List TextFrame),
      find_and_replace_in_shape relate repls click?
          (Shape.group [Shape.group [Shape.withTable rows]]) =
        Shape.group [Shape.group [Shape.withTable (rows.map (fun row =>
          row.map (fun cell =>
            find_and_replace_in_text_frame relate cell repls click?)))]]) ∧
    find_and_replace_in_shape relate repls click? Shape.plainShape =
      Shape.plainShape ∧
    (∀ (k v a b : List Char) (r : Run), isToken k →
      containsSub k a = false → containsSub k b = false →
      r.text = a ++ (k ++ b) →
      find_and_replace_in_shape relate [(k, v)] none
          (Shape.group [Shape.group [Shape.withTable [[[[r]]]]]]) =
        Shape.group [Shape.group [Shape.withTable
          [[[[{ r with text := a ++ (v ++ b) }]]]]]]) := by
  refine ⟨?_, ?_, ?_⟩
  · intro rows
    rw [find_and_replace_in_shape, walkShapes, walkShapes,
      find_and_replace_in_shape, walkShapes, walkShapes,
      find_and_replace_in_shape]
  · rw [find_and_replace_in_shape]
  · intro k v a b r htok ha hb htext
    rw [find_and_replace_in_shape, walkShapes, walkShapes,
      find_and_replace_in_shape, walkShapes, walkShapes,
      find_and_replace_in_shape]
    have hcell : find_and_replace_in_text_frame relate [[r]] [(k, v)] none =
        [[{ r with text := a ++ (v ++ b) }]] := by
      show [[replaceRun relate [(k, v)] [] r]] = _
      have hkc : containsSub k r.text = true := by
        rw [htext, ← List.append_assoc]
        exact containsSub_decomp k a b
      have hstep : replaceRun relate [(k, v)] [] r =
          { r with text := pyReplace r.text k v } := by
        show List.foldl (applyItem relate [] r.text) r [(k, v)] = _
        rw [List.foldl_cons, List.foldl_nil,
          applyItem_no_click relate [] r.text r (k, v) rfl]
        rw [if_pos hkc]
      rw [hstep, htext]
      rw [pyReplace_token_single htok v a b ha hb]
    simp only [List.map_cons, List.map_nil]
    rw [hcell]

theorem c5_witness :
    find_and_replace_in_shape relateOk [(tokA, ['X'])] none
        (Shape.group [Shape.group [Shape.withTable
          [[[[plainRun (['c', ' '] ++ (tokA ++ ['!']))]]]]]]) =
      Shape.group [Shape.group [Shape.withTable
        [[[[{ plainRun (['c', ' '] ++ (tokA ++ ['!'])) with
              text := ['c', ' '] ++ (['X'] ++ ['!']) }]]]]]] :=
  (c5_recursive_shape_coverage relateOk [(tokA, ['X'])] none).2.2
    tokA ['X'] ['c', ' '] ['!'] (plainRun (['c', ' '] ++ (tokA ++ ['!'])))
    ⟨['a'], by decide, by decide⟩ (by decide) (by decide) (by decide)

/-- C6: add_hyperlink_to_run is total (exceptions of the fallible
relationship registration are absorbed as the error branch of the
passed Except value) and returns a Bool: true exactly when the
relationship registration succeeded, in which case the hyperlink id is
attached; in every outcome, success or fallback, the run receives the
visual link styling, colour RGBColor(0, 0, 255) and underline. -/
theorem c6_hyperlink_never_raises (relate : Except Unit Nat) (r : Run) :
    ((add_hyperlink_to_run relate r).1 = true ↔ ∃ rId, relate = Except.ok rId) ∧
    (add_hyperlink_to_run relate r).2.font.color = RunColor.rgb (rgbColor 0 0 255) ∧
    (add_hyperlink_to_run relate r).2.font.underline = some true ∧
    (∀ rId, relate = Except.ok rId →
      (add_hyperlink_to_run relate r).2.hyperlink = some rId) := by
  cases relate with
  | ok rId => simp [add_hyperlink_to_run]
  | error e => simp [add_hyperlink_to_run]

theorem c6_witness :
    (add_hyperlink_to_run (Except.error ()) (plainRun [])).1 = false ∧
    (add_hyperlink_to_run (Except.error ()) (plainRun [])).2.font.color =
      RunColor.rgb (rgbColor 0 0 255) ∧
    (add_hyperlink_to_run (Except.error ()) (plainRun [])).2.font.underline =
      some true ∧
    (add_hyperlink_to_run (Except.ok 7) (plainRun [])).2.hyperlink = some 7 := by
  refine ⟨?_, ?_, ?_, ?_⟩
  · cases hb : (add_hyperlink_to_run (Except.error ()) (plainRun [])).1 with
    | false => rfl
    | true =>
      obtain ⟨rId, hcontra⟩ :=
        (c6_hyperlink_never_raises (Except.error ()) (plainRun [])).1.mp hb
      cases hcontra
  · exact (c6_hyperlink_never_raises (Except.error ()) (plainRun [])).2.1
  · exact (c6_hyperlink_never_raises (Except.error ()) (plainRun [])).2.2.1
  · exact (c6_hyperlink_never_raises (Except.ok 7) (plainRun [])).2.2.2 7 rfl

/-- C7: replace_placeholders_in_ppt fails exactly when loading the
template fails: a load error is propagated unchanged with no partial
document, and once loading succeeds the traversal and replacement are
total, so a document is always returned. -/
theorem c7_only_load_can_fail (relate : List Char → Except Unit Nat)
    (repls : List (List Char × List Char))
    (click? : Option (List (List Char × List Char))) :
    (∀ e, replace_placeholders_in_ppt relate (Except.error e) repls click? =
      Except.error e) ∧
    (∀ prs : Prs, ∃ doc : Prs,
      replace_placeholders_in_ppt relate (Except.ok prs) repls click? =
        Except.ok doc) ∧
    (∀ loadResult : Except Unit Prs,
      (replace_placeholders_in_ppt relate loadResult repls click?).isOk =
        loadResult.isOk) := by
  refine ⟨fun e => rfl, fun prs => ⟨_, rfl⟩, ?_⟩
  intro loadResult
  cases loadResult <;> rfl

/-- C8: filling any presentation with an empty replacement mapping and
an empty clickable set is a no-op: the returned document is the loaded
presentation itself, every run text and every formatting attribute
unchanged. -/
theorem c8_empty_mapping_noop (relate : List Char → Except Unit Nat) (prs : Prs) :
    replace_placeholders_in_ppt relate (Except.ok prs) [] (some []) =
      Except.ok prs := by
  show Except.ok (prs.map (fun slide =>
    slide.map (find_and_replace_in_shape relate [] (some [])))) = Except.ok prs
  have hslide : ∀ slide : Slide,
      slide.map (find_and_replace_in_shape relate [] (some [])) = slide := by
    intro slide
    calc slide.map (find_and_replace_in_shape relate [] (some []))
        = slide.map id :=
          List.map_congr_left (fun s _ => shape_empty_id relate (some []) s)
      _ = slide := List.map_id slide
  rw [List.map_congr_left (fun slide _ => hslide slide)]
  exact congrArg Except.ok (List.map_id prs)

/-- C9: when one placeholder token occurs twice in a single run, one
processing of its (placeholder, value) pair replaces both occurrences:
the substitution has replace-all semantics on the run text. -/
theorem c9_repeated_token_replace_all (relate : List Char → Except Unit Nat)
    (click : List (List Char × List Char)) (r : Run) (k v a b c : List Char)
    (ht : isToken k)
    (htext : r.text = a ++ (k ++ (b ++ (k ++ c))))
    (ha : containsSub k a = false) (hb : containsSub k b = false)
    (hc : containsSub k c = false) :
    (replaceRun relate [(k, v)] click r).text =
      a ++ (v ++ (b ++ (v ++ c))) := by
  have hcont : containsSub k r.text = true := by
    rw [htext]
    exact (containsSub_iff k _).mpr ⟨a, b ++ (k ++ c), by rw [List.append_assoc]⟩
  have hmain := foldl_text_unique relate click r.text k v [(k, v)] r
    (by
      intro kv hm _
      rw [List.mem_singleton] at hm
      exact hm)
    ⟨(k, v), by simp, hcont⟩
  rw [show (replaceRun relate [(k, v)] click r).text = pyReplace r.text k v from hmain]
  rw [htext]
  exact pyReplace_token_double ht v a b c ha hb hc

theorem c9_witness :
    (replaceRun relateOk [(tokA, ['V'])] []
      (plainRun (['s', ' '] ++ (tokA ++ ([' ', 'm', ' '] ++ (tokA ++ [' ', 'e'])))))).text =
      ['s', ' '] ++ (['V'] ++ ([' ', 'm', ' '] ++ (['V'] ++ [' ', 'e']))) :=
  c9_repeated_token_replace_all relateOk []
    (plainRun (['s', ' '] ++ (tokA ++ ([' ', 'm', ' '] ++ (tokA ++ [' ', 'e'])))))
    tokA ['V'] ['s', ' '] [' ', 'm', ' '] [' ', 'e']
    ⟨['a'], by decide, by decide⟩ (by decide) (by decide) (by decide) (by decide)

/-- C10: omitting the clickable-links argument (None) is equivalent to
passing the empty clickable set, for the text frame replacer and for
the shape walker alike, and with an empty clickable set no run receives
a hyperlink or any change of formatting. -/
theorem c10_none_clickable_is_empty (relate : List Char → Except Unit Nat)
    (repls : List (List Char × List Char)) :
    (∀ tf : TextFrame, find_and_replace_in_text_frame relate tf repls none =
      find_and_replace_in_text_frame relate tf repls (some [])) ∧
    (∀ s : Shape, find_and_replace_in_shape relate repls none s =
      find_and_replace_in_shape relate repls (some []) s) ∧
    (∀ r : Run, (replaceRun relate repls [] r).hyperlink = r.hyperlink ∧
      (replaceRun relate repls [] r).font = r.font) := by
  refine ⟨fun tf => find_TF_click_congr relate repls tf none (some []) rfl,
    fun s => shape_click_congr relate repls none (some []) rfl s,
    fun r => ⟨(foldl_font_hyper relate [] r.text repls r (fun kv _ => rfl)).2,
      (foldl_font_hyper relate [] r.text repls r (fun kv _ => rfl)).1⟩⟩

end ProposalGen
